import Mathlib

/-!
Verification of `extract_and_patch.py`: a shallow embedding of the HAR
extractor (`extract_har`), the HTML patcher (`patch_index`), and the
orchestrator (`main`) of the repository, together with theorems settling
the specification claims.

Strings are modelled as `List Char`.  The filesystem is modelled as the
ordered list of write events `(path, data)` the program performs; the
content of a file after the run is the last write to its path.
Python library calls (`urllib.parse.urlparse`, `urllib.parse.unquote`,
`base64.b64decode`, `str.replace`, `str.split`, `re.sub`) are modelled by
executable Lean functions that follow the documented behaviour of those
library routines on the inputs this program feeds them (ASCII text).
-/

/-! ### Small string helpers -/

/-- Value of a hexadecimal digit, if the character is one. -/
def hexVal? (c : Char) : Option Nat :=
  if '0' ≤ c ∧ c ≤ '9' then some (c.toNat - '0'.toNat)
  else if 'a' ≤ c ∧ c ≤ 'f' then some (c.toNat - 'a'.toNat + 10)
  else if 'A' ≤ c ∧ c ≤ 'F' then some (c.toNat - 'A'.toNat + 10)
  else none

/-- Model of `urllib.parse.unquote`: a `%` followed by two hex digits is
decoded to the corresponding byte (single-byte escapes; the program's
inputs are ASCII); any other `%` is kept literally. -/
def pctDecode : List Char → List Char
  | [] => []
  | '%' :: a :: b :: rest =>
    match hexVal? a, hexVal? b with
    | some ha, some hb => Char.ofNat (16 * ha + hb) :: pctDecode rest
    | _, _ => '%' :: pctDecode (a :: b :: rest)
  | c :: rest => c :: pctDecode rest

/-- Whitespace characters matched by Python's regex `\s` on ASCII text. -/
def isPySpace (c : Char) : Bool :=
  c = ' ' ∨ c = '\t' ∨ c = '\n' ∨ c = '\r' ∨ c = '\x0b' ∨ c = '\x0c'

/-- Substring test: model of Python's `needle in hay` for strings. -/
def infixOfB (needle : List Char) : List Char → Bool
  | [] => needle.isPrefixOf []
  | c :: cs => needle.isPrefixOf (c :: cs) || infixOfB needle cs

/-- The part of `s` after the first occurrence of `needle`, if it occurs. -/
def afterFirst (needle : List Char) : List Char → Option (List Char)
  | [] => if needle.isPrefixOf [] then some [] else none
  | c :: cs =>
    if needle.isPrefixOf (c :: cs) then some ((c :: cs).drop needle.length)
    else afterFirst needle cs

/-- Model of Python's `s.split(sep, 1)[-1]` for non-empty `sep`: the part
after the first occurrence of `sep`, or `s` itself when `sep` does not
occur.  (Python raises on an empty separator; the program only passes
non-empty hosts.) -/
def splitOnceLast (sep s : List Char) : List Char :=
  match afterFirst sep s with
  | some r => r
  | none => s

/-- Model of Python's `s.split("/", n)[-1]`: drop everything up to and
including the `n`-th `/` (or fewer, if `s` has fewer slashes). -/
def splitSlashLast : Nat → List Char → List Char
  | 0, s => s
  | n + 1, s =>
    match afterFirst ['/'] s with
    | some r => splitSlashLast n r
    | none => s

/-- Model of Python's `s.lstrip('/')`. -/
def dropSlashes (s : List Char) : List Char := s.dropWhile (· = '/')

/-- Fueled worker for `pyReplace`.  The fuel is an upper bound on the
length of the string, which shrinks by at least one each step. -/
def pyReplaceF (old new : List Char) : Nat → List Char → List Char
  | _, [] => []
  | 0, s => s
  | fuel + 1, c :: cs =>
    if !old.isEmpty && old.isPrefixOf (c :: cs) then
      new ++ pyReplaceF old new fuel ((c :: cs).drop old.length)
    else
      c :: pyReplaceF old new fuel cs

/-- Model of Python's `s.replace(old, new)`: replace every non-overlapping
occurrence of `old`, scanning left to right.  (For empty `old` Python
interleaves `new` everywhere; the program only calls this with the
non-empty regex group `url`, and this model returns `s` unchanged.) -/
def pyReplace (s old new : List Char) : List Char := pyReplaceF old new s.length s

/-- Python's `"\n".join`. -/
def joinNL : List (List Char) → List Char
  | [] => []
  | [x] => x
  | x :: y :: rest => x ++ '\n' :: joinNL (y :: rest)

/-! ### Model of `urllib.parse.urlparse` (netloc and path components)

Only the `netloc` and `path` results are used by the program.  Following
`urlsplit`: an initial `<scheme>:` is removed when the scheme is
syntactically valid; a `//` then introduces the netloc, which extends to
the first `/`, `?` or `#`; the fragment (from the first `#`) and the query
(from the first `?`) are cut off; finally `urlparse` splits parameters at
a `;` in the last path segment. -/

/-- Valid characters of a URL scheme after the first (alphabetic) one. -/
def schemeChar (c : Char) : Bool := c.isAlphanum || c = '+' || c = '-' || c = '.'

/-- Remove a leading `<scheme>:` if present and well-formed. -/
def stripScheme (u : List Char) : List Char :=
  match u.findIdx? (· = ':') with
  | none => u
  | some i =>
    let cand := u.take i
    match cand with
    | [] => u
    | c :: rest =>
      if c.isAlpha && rest.all schemeChar then u.drop (i + 1) else u

/-- Suffix of `p` strictly after its last `/` (all of `p` if no slash). -/
def afterLastSlash (p : List Char) : List Char :=
  (p.reverse.takeWhile (· ≠ '/')).reverse

/-- Parameter split of `urlparse`: cut the path at a `;` occurring in its
last segment. -/
def splitParams (p : List Char) : List Char :=
  if p.contains ';' then
    if p.contains '/' then
      let r := afterLastSlash p
      if r.contains ';' then
        p.take (p.length - r.length) ++ r.takeWhile (· ≠ ';')
      else p
    else p.takeWhile (· ≠ ';')
  else p

/-- Model of `urllib.parse.urlparse`, returning `(netloc, path)`. -/
def urlparse (u : List Char) : List Char × List Char :=
  let rest := stripScheme u
  let netloc :=
    if ['/', '/'].isPrefixOf rest then
      (rest.drop 2).takeWhile (fun c => c ≠ '/' && c ≠ '?' && c ≠ '#')
    else []
  let rest2 :=
    if ['/', '/'].isPrefixOf rest then (rest.drop 2).drop netloc.length else rest
  let noFrag := rest2.takeWhile (· ≠ '#')
  let noQuery := noFrag.takeWhile (· ≠ '?')
  (netloc, splitParams noQuery)

/-! ### Model of `base64.b64decode` -/

/-- Value of a standard base64 alphabet character. -/
def b64val? (c : Char) : Option Nat :=
  if 'A' ≤ c ∧ c ≤ 'Z' then some (c.toNat - 'A'.toNat)
  else if 'a' ≤ c ∧ c ≤ 'z' then some (c.toNat - 'a'.toNat + 26)
  else if '0' ≤ c ∧ c ≤ '9' then some (c.toNat - '0'.toNat + 52)
  else if c = '+' then some 62
  else if c = '/' then some 63
  else none

/-- Keep only base64 alphabet characters and `=` (as `binascii` does in
non-strict mode, which discards other characters). -/
def b64filter (s : List Char) : List Char :=
  s.filter (fun c => (b64val? c).isSome || c = '=')

/-- Decode successive quads of base64 symbols; `=` padding is accepted
only at the end of the data.  `none` models a `binascii.Error`. -/
def b64quads : List Char → Option (List Nat)
  | [] => some []
  | a :: b :: c :: d :: rest =>
    match b64val? a, b64val? b with
    | some va, some vb =>
      if c = '=' then
        if d = '=' ∧ rest = [] then some [va * 4 + vb / 16] else none
      else
        match b64val? c with
        | some vc =>
          if d = '=' then
            if rest = [] then some [va * 4 + vb / 16, (vb % 16) * 16 + vc / 4]
            else none
          else
            match b64val? d with
            | some vd =>
              match b64quads rest with
              | some bs =>
                some ((va * 4 + vb / 16) :: ((vb % 16) * 16 + vc / 4) ::
                      ((vc % 4) * 64 + vd) :: bs)
              | none => none
            | none => none
        | none => none
    | _, _ => none
  | _ => none

/-- Model of `base64.b64decode` (default non-strict validation): invalid
characters are discarded, then the symbol count must be a multiple of
four with padding only at the end; `none` models the raised
`binascii.Error` that `extract_har` catches. -/
def b64decode (s : List Char) : Option (List Nat) := b64quads (b64filter s)

/-! ### Model of the extractor (`extract_har`)

A HAR entry is modelled by the fields the program reads: `request.url`,
`response.content.text`, `response.content.encoding`, `response.status`.
Missing JSON fields are modelled by `none` (and the empty string for a
missing URL, matching `req.get('url')` being falsy). -/

/-- `response.content` of a HAR entry. -/
structure HarContent where
  text : Option (List Char)
  encoding : Option (List Char)
deriving DecidableEq

/-- `request` of a HAR entry. -/
structure HarRequest where
  url : List Char
deriving DecidableEq

/-- `response` of a HAR entry. -/
structure HarResponse where
  content : HarContent
  status : Option Nat
deriving DecidableEq

/-- A HAR entry, with the fields `extract_har` reads. -/
structure HarEntry where
  request : HarRequest
  response : HarResponse
deriving DecidableEq

/-- Content of a written file: text write (`safe_write` with
`binary=False`) or binary write of decoded bytes (`binary=True`). -/
inductive FileData where
  | text (s : List Char)
  | binary (b : List Nat)
deriving DecidableEq

/-- Image extensions skipped by the program (`IMAGE_EXTS`). -/
def IMAGE_EXTS : List (List Char) :=
  [".png".toList, ".jpg".toList, ".jpeg".toList, ".gif".toList,
   ".webp".toList, ".svg".toList, ".ico".toList]

/-- Model of `path.lower().endswith(IMAGE_EXTS)`. -/
def isImagePath (p : List Char) : Bool :=
  IMAGE_EXTS.any (fun e => e.isSuffixOf (p.map Char.toLower))

/-- Local path derived from a parsed URL by `extract_har`:
`urllib.parse.unquote(parsed.path.lstrip('/'))`, defaulting to
`host + '/index.html'` when empty. -/
def derivedPath (host path0 : List Char) : List Char :=
  let p := pctDecode (dropSlashes path0)
  if p = [] then host ++ "/index.html".toList else p

/-- Outcome of the per-entry body of the `extract_har` loop. -/
inductive EntryResult where
  | skipNoUrl
  | skipNoHost
  | skipImage (path : List Char)
  | skipNoBody (url : List Char) (status : Option Nat)
  | wrote (path : List Char) (data : FileData)
  | failed (path : List Char)
deriving DecidableEq

/-- One iteration of the `extract_har` loop for one entry: the URL and
host guards, the image skip, the missing-body skip, then the base64 or
text write; `failed` is the `except` branch (a `binascii.Error` from
`base64.b64decode`; other I/O errors are not modelled). -/
def processEntry (e : HarEntry) : EntryResult :=
  if e.request.url = [] then .skipNoUrl
  else
    let host := (urlparse e.request.url).1
    if host = [] then .skipNoHost
    else
      let path := derivedPath host (urlparse e.request.url).2
      if isImagePath path then .skipImage path
      else
        match e.response.content.text with
        | none => .skipNoBody e.request.url e.response.status
        | some t =>
          if e.response.content.encoding = some "base64".toList then
            match b64decode t with
            | some bs => .wrote path (.binary bs)
            | none => .failed path
          else .wrote path (.text t)

/-- The host contributed by an entry to the `hosts` set: added for every
entry with a non-empty URL and a non-empty netloc, before the image and
body checks. -/
def entryHost (e : HarEntry) : Option (List Char) :=
  if e.request.url = [] then none
  else
    let h := (urlparse e.request.url).1
    if h = [] then none else some h

/-- Model of `set.add`: the insertion-order list of distinct elements. -/
def insertIfAbsent (x : List Char) (l : List (List Char)) : List (List Char) :=
  if x ∈ l then l else l ++ [x]

/-- The `hosts` set accumulated by the `extract_har` loop. -/
def extractHosts (entries : List HarEntry) : List (List Char) :=
  entries.foldl
    (fun acc e => match entryHost e with
      | some h => insertIfAbsent h acc
      | none => acc) []

/-- Content of `extracted_hosts.txt`: `"\n".join(sorted(hosts))`. -/
def hostsFileContent (entries : List HarEntry) : List Char :=
  joinNL (List.insertionSort (· ≤ ·) (extractHosts entries))

/-- The write event of a loop iteration, if any. -/
def writeOf : EntryResult → Option (List Char × FileData)
  | .wrote p d => some (p, d)
  | _ => none

/-- The entry-file write events of `extract_har`, in order. -/
def extractWrites (entries : List HarEntry) : List (List Char × FileData) :=
  entries.filterMap (fun e => writeOf (processEntry e))

/-- Path of the host-set artifact, relative to the output root. -/
def hostsFilePath : List Char := "extracted_hosts.txt".toList

/-- All write events of `extract_har` under its output root: the entry
files, then `extracted_hosts.txt`. -/
def extractFiles (entries : List HarEntry) : List (List Char × FileData) :=
  extractWrites entries ++ [(hostsFilePath, .text (hostsFileContent entries))]

/-- Paths reported by the `print("ERROR writing", out_path, ex)` branch. -/
def errorsOf (entries : List HarEntry) : List (List Char) :=
  entries.filterMap (fun e =>
    match processEntry e with
    | .failed p => some p
    | _ => none)

/-- Content of the file at `p` after a list of write events (last write
wins), or `none` if never written. -/
def lookupLast (fs : List (List Char × FileData)) (p : List Char) : Option FileData :=
  fs.foldl (fun acc qd => if qd.1 = p then some qd.2 else acc) none

/-! ### Model of the orchestrator (`main`)

`main` extracts into the staging directory `out_extracted` under the
target root, then (staging and target always differ) walks the staging
tree and byte-copies every file to the same relative path under the
target root.  The walk sees the staged file contents after extraction,
i.e. the last write to each staged path. -/

/-- The staging directory prefix, as seen from the target root. -/
def stagedDir : List Char := "out_extracted/".toList

/-- All write events of a run of `main` relative to the target root:
the staged writes of `extract_har`, then the copy phase, which writes
each staged path's final content at the same path under the root. -/
def mainFiles (entries : List HarEntry) : List (List Char × FileData) :=
  (extractFiles entries).map (fun pd => (stagedDir ++ pd.1, pd.2)) ++
  (extractFiles entries).filterMap
    (fun pd => (lookupLast (extractFiles entries) pd.1).map (fun d => (pd.1, d)))

/-! ### Model of the patcher (`patch_index`)

Each `re.sub` call is modelled by a left-to-right scan: at each position
a head matcher either matches (returning the match length minus one and
the replacement text) or fails, in which case one character is emitted
and the scan moves on.  Matches are non-overlapping and scanning resumes
after each match, as in `re.sub`.  Each head matcher implements its
pattern's backtracking behaviour deterministically.

Only the in-memory text transformation is modelled; reading the file,
the timestamped backup and the write-back are filesystem effects outside
the text rewrite the claims are about. -/

/-- Fueled scan worker: the fuel is an upper bound on the string length,
which shrinks by at least one per step (every match is non-empty). -/
def scanSubF (f : List Char → Option (Nat × List Char)) : Nat → List Char → List Char
  | _, [] => []
  | 0, s => s
  | fuel + 1, c :: cs =>
    match f (c :: cs) with
    | some (k, rep) => rep ++ scanSubF f fuel (cs.drop k)
    | none => c :: scanSubF f fuel cs

/-- Model of `re.sub(pattern, repl, s)` for the head matcher `f` of the
pattern: a match of `f t = some (k, rep)` consumes `k + 1` characters of
`t` and emits `rep`. -/
def scanSub (f : List Char → Option (Nat × List Char)) (s : List Char) : List Char :=
  scanSubF f s.length s

/-- The `replacer` closure of `patch_index`: images are returned
unchanged; otherwise the first host (in iteration order) occurring in the
URL rewrites the matched tag text by
`match.group(0).replace(url, './' + url.split(host, 1)[-1].lstrip('/'))`;
with no matching host the matched text is returned unchanged. -/
def replacer (hosts : List (List Char)) (g0 url : List Char) : List Char :=
  if isImagePath url then g0
  else
    match hosts.find? (fun h => infixOfB h url) with
    | some h => pyReplace g0 url ('.' :: '/' :: dropSlashes (splitOnceLast h url))
    | none => g0

/-- Backtracking search of `[^>]+ src="([^"]+)"` after the tag literal:
try the longest `[^>]+` first (the regex engine's greedy order), i.e.
the candidate attribute positions from `k` down to `1`; at each, require
the attribute literal, a non-empty run of non-quote characters, and a
closing quote.  Returns `(length of [^>]+, length of the URL group)`. -/
def tagScan (attr rest : List Char) : Nat → Option (Nat × Nat)
  | 0 => none
  | k + 1 =>
    let after := (rest.drop (k + 1)).drop attr.length
    let url := after.takeWhile (· ≠ '"')
    if attr.isPrefixOf (rest.drop (k + 1)) &&
        !url.isEmpty && ((after.drop url.length).head? == some '"') then
      some (k + 1, url.length)
    else tagScan attr rest k

/-- Head matcher for `re.sub(r'<TAG[^>]+ATTR"([^"]+)"', replacer, s)`
(`<script … src="…"` and `<link … href="…"`): the tag literal, then the
backtracking search `tagScan`, bounded by the maximal run of non-`>`
characters. -/
def tagFind (tag attr : List Char) (hosts : List (List Char)) (t : List Char) :
    Option (Nat × List Char) :=
  if tag.isPrefixOf t then
    let rest := t.drop tag.length
    match tagScan attr rest ((rest.takeWhile (· ≠ '>')).length) with
    | some (k, m) =>
      let total := tag.length + k + attr.length + m + 1
      some (total - 1,
        replacer hosts (t.take total) ((rest.drop (k + attr.length)).take m))
    | none => none
  else none

/-- `<script` literal. -/
def scriptTag : List Char := "<script".toList

/-- `<link` literal. -/
def linkTag : List Char := "<link".toList

/-- `src="` literal. -/
def srcAttr : List Char := "src=\"".toList

/-- `href="` literal. -/
def hrefAttr : List Char := "href=\"".toList

/-- The `<script … src="…">` substitution pass. -/
def scriptSub (hosts : List (List Char)) (s : List Char) : List Char :=
  scanSub (tagFind scriptTag srcAttr hosts) s

/-- The `<link … href="…">` substitution pass. -/
def linkSub (hosts : List (List Char)) (s : List Char) : List Char :=
  scanSub (tagFind linkTag hrefAttr hosts) s

/-- Head matcher for
`re.sub(r'@import\s+url\(["\']?(https?://[^)]+)["\']?\)', …, s)`.
The greedy `[^)]+` runs to the first `)`, so the optional closing quote
always matches empty; the optional opening quote and the `https?`
alternation are deterministic because their failure cannot be rescued by
the other branch. The replacement is
`'@import url("./' + m.group(1).split("/", 3)[-1] + '")'`. -/
def cssImportFind (t : List Char) : Option (Nat × List Char) :=
  if "@import".toList.isPrefixOf t then
    let r1 := t.drop 7
    let ws := r1.takeWhile isPySpace
    if ws.isEmpty then none
    else
      let r2 := r1.drop ws.length
      if "url(".toList.isPrefixOf r2 then
        let r3 := r2.drop 4
        let q := if r3.head? = some '"' ∨ r3.head? = some '\'' then 1 else 0
        let r4 := r3.drop q
        let sch := if "https://".toList.isPrefixOf r4 then some 8
          else if "http://".toList.isPrefixOf r4 then some 7
          else none
        match sch with
        | none => none
        | some n =>
          let body := (r4.drop n).takeWhile (· ≠ ')')
          if body.isEmpty then none
          else if ((r4.drop n).drop body.length).head? = some ')' then
            let matchLen := 7 + ws.length + 4 + q + n + body.length + 1
            some (matchLen - 1,
              "@import url(\"./".toList ++
                splitSlashLast 3 (r4.take (n + body.length)) ++ "\")".toList)
          else none
      else none
  else none

/-- The `@import url(…)` substitution pass. -/
def cssImportSub (s : List Char) : List Char := scanSub cssImportFind s

/-- Head matcher for `re.sub(r'https?://[^/]+/_next/static/', './_next/static/', s)`. -/
def nextFind1 (t : List Char) : Option (Nat × List Char) :=
  let sch := if "https://".toList.isPrefixOf t then some 8
    else if "http://".toList.isPrefixOf t then some 7
    else none
  match sch with
  | none => none
  | some n =>
    let host := (t.drop n).takeWhile (· ≠ '/')
    if host.isEmpty then none
    else if "/_next/static/".toList.isPrefixOf ((t.drop n).drop host.length) then
      some (n + host.length + 14 - 1, "./_next/static/".toList)
    else none

/-- Head matcher for `re.sub(r'//[^/]+/_next/static/', './_next/static/', s)`. -/
def nextFind2 (t : List Char) : Option (Nat × List Char) :=
  if ['/', '/'].isPrefixOf t then
    let host := (t.drop 2).takeWhile (· ≠ '/')
    if host.isEmpty then none
    else if "/_next/static/".toList.isPrefixOf ((t.drop 2).drop host.length) then
      some (2 + host.length + 14 - 1, "./_next/static/".toList)
    else none
  else none

/-- The absolute `_next/static` substitution pass. -/
def nextSub1 (s : List Char) : List Char := scanSub nextFind1 s

/-- The protocol-relative `_next/static` substitution pass. -/
def nextSub2 (s : List Char) : List Char := scanSub nextFind2 s

/-- Head matcher for `re.sub(r'\s+NAME="[^"]*"', '', s)` (the
`integrity` and `crossorigin` attribute strips): a maximal non-empty
whitespace run, the attribute literal, a possibly empty non-quote run,
and the closing quote; replaced by nothing. -/
def attrStripFind (name : List Char) (t : List Char) : Option (Nat × List Char) :=
  let ws := t.takeWhile isPySpace
  if ws.isEmpty then none
  else
    let r := t.drop ws.length
    if (name ++ "=\"".toList).isPrefixOf r then
      let v := (r.drop (name.length + 2)).takeWhile (· ≠ '"')
      if ((r.drop (name.length + 2)).drop v.length).head? = some '"' then
        some (ws.length + name.length + 2 + v.length + 1 - 1, [])
      else none
    else none

/-- The `integrity="…"` strip pass. -/
def integritySub (s : List Char) : List Char :=
  scanSub (attrStripFind "integrity".toList) s

/-- The `crossorigin="…"` strip pass. -/
def crossoriginSub (s : List Char) : List Char :=
  scanSub (attrStripFind "crossorigin".toList) s

/-- The pure text transformation of `patch_index`: the seven `re.sub`
passes in program order. -/
def patch_index (hosts : List (List Char)) (s : List Char) : List Char :=
  crossoriginSub (integritySub (nextSub2 (nextSub1 (cssImportSub
    (linkSub hosts (scriptSub hosts s))))))

/-! ### Specification-side definitions and concrete inputs for the claims -/

/-- Local path `extract_har` derives for an entry (host and path taken
from the parsed request URL). -/
def entryPath (e : HarEntry) : List Char :=
  derivedPath (urlparse e.request.url).1 (urlparse e.request.url).2

/-- The response body as claim C1 words it: base64-decoded bytes when
`encoding` is `"base64"` (undefined when the text is not valid base64),
the literal text otherwise; `none` when `text` is absent. -/
def bodyData (e : HarEntry) : Option FileData :=
  match e.response.content.text with
  | none => none
  | some t =>
    if e.response.content.encoding = some "base64".toList then
      (b64decode t).map .binary
    else some (.text t)

/-- Content of `extracted_hosts.txt` as claim C3 states it: the sorted,
newline-joined set of netloc strings over all entries with a non-empty
URL — including an entry whose URL has an empty netloc, which under this
reading contributes the empty string. -/
def c3ClaimContent (entries : List HarEntry) : List Char :=
  joinNL (List.insertionSort (· ≤ ·)
    (List.dedup (entries.filterMap (fun e =>
      if e.request.url ≠ [] then some (urlparse e.request.url).1 else none))))

/-- Content of `extracted_hosts.txt` as amended: the sorted,
newline-joined set of netloc strings over all entries with a non-empty
URL and a non-empty netloc. -/
def c3AmendedContent (entries : List HarEntry) : List Char :=
  joinNL (List.insertionSort (· ≤ ·)
    (List.dedup (entries.filterMap (fun e =>
      if e.request.url ≠ [] ∧ (urlparse e.request.url).1 ≠ []
      then some (urlparse e.request.url).1 else none))))

/-- The rewritten URL as claim C5 words it: `./` followed by the part of
the URL after the first occurrence of the host, with leading slashes
stripped (defined only when the host occurs in the URL). -/
def c5SpecNewUrl (host url : List Char) : Option (List Char) :=
  (afterFirst host url).map (fun r => '.' :: '/' :: dropSlashes r)

/-- Check that a match of `f` at `t`, if any, replaces the matched text
by itself. -/
def selfRepB (f : List Char → Option (Nat × List Char)) (t : List Char) : Bool :=
  match f t with
  | none => true
  | some (k, rep) => rep == t.take (k + 1)

/-- Check that no pass of `patch_index` with host set `hosts` changes
anything anywhere in `s`: at every suffix, the tag passes either fail or
replace the matched text by itself, and the `@import`, `_next/static`,
`integrity` and `crossorigin` passes fail. -/
def patchNoOpCheck (hosts : List (List Char)) (s : List Char) : Bool :=
  s.tails.all (fun t =>
    selfRepB (tagFind scriptTag srcAttr hosts) t &&
    selfRepB (tagFind linkTag hrefAttr hosts) t &&
    (cssImportFind t).isNone && (nextFind1 t).isNone && (nextFind2 t).isNone &&
    (attrStripFind "integrity".toList t).isNone &&
    (attrStripFind "crossorigin".toList t).isNone)

/-- A plain text entry: `http://h/a.txt` with body `"hi"`. -/
def exEntryText : HarEntry :=
  ⟨⟨"http://h/a.txt".toList⟩, ⟨⟨some "hi".toList, none⟩, none⟩⟩

/-- An entry whose base64 body does not decode (`"AB"`). -/
def exEntryBadB64 : HarEntry :=
  ⟨⟨"http://h/b.bin".toList⟩, ⟨⟨some "AB".toList, some "base64".toList⟩, some 200⟩⟩

/-- An entry with a non-empty URL but an empty netloc. -/
def exEntryNoHost : HarEntry :=
  ⟨⟨"app.js".toList⟩, ⟨⟨some "x".toList, none⟩, none⟩⟩

/-- An image entry. -/
def exEntryImg : HarEntry :=
  ⟨⟨"http://h/logo.png".toList⟩, ⟨⟨some "x".toList, none⟩, none⟩⟩

/-- A second plain text entry on another host. -/
def exEntryText2 : HarEntry :=
  ⟨⟨"http://k/c.txt".toList⟩, ⟨⟨some "yo".toList, none⟩, none⟩⟩

/-- Entries for the C3 counterexample: a URL with empty netloc and a
URL with netloc `a`. -/
def c3Entries : List HarEntry :=
  [⟨⟨"foo".toList⟩, ⟨⟨none, none⟩, none⟩⟩,
   ⟨⟨"http://a/x".toList⟩, ⟨⟨none, none⟩, none⟩⟩]

/-- An entry whose URL path is a bare slash. -/
def exEntrySlash : HarEntry :=
  ⟨⟨"http://h/".toList⟩, ⟨⟨some "x".toList, none⟩, none⟩⟩

/-- The `integrity` attribute occurrence of claim C7. -/
def c7m1 : List Char := " integrity=\"sha384-abc\"".toList

/-- The `crossorigin` attribute occurrence of claim C7. -/
def c7m2 : List Char := " crossorigin=\"anonymous\"".toList

/-! ### Scan lemmas -/

/-- Unfolding of one scan step on a match. -/
theorem scanSubF_cons_some (f : List Char → Option (Nat × List Char)) (n : Nat)
    (c : Char) (cs : List Char) (k : Nat) (rep : List Char)
    (h : f (c :: cs) = some (k, rep)) :
    scanSubF f (n + 1) (c :: cs) = rep ++ scanSubF f n (cs.drop k) := by
  simp [scanSubF, h]

/-- Unfolding of one scan step on a failure. -/
theorem scanSubF_cons_none (f : List Char → Option (Nat × List Char)) (n : Nat)
    (c : Char) (cs : List Char) (h : f (c :: cs) = none) :
    scanSubF f (n + 1) (c :: cs) = c :: scanSubF f n cs := by
  simp [scanSubF, h]

/-- The scan result does not depend on the fuel, as long as the fuel
bounds the string length. -/
theorem scanSubF_congr_fuel (f : List Char → Option (Nat × List Char)) :
    ∀ (fuel1 fuel2 : Nat) (s : List Char), s.length ≤ fuel1 → s.length ≤ fuel2 →
      scanSubF f fuel1 s = scanSubF f fuel2 s := by
  intro fuel1
  induction fuel1 with
  | zero =>
    intro fuel2 s h1 _
    have : s = [] := List.eq_nil_of_length_eq_zero (Nat.le_zero.mp h1)
    subst this
    simp [scanSubF]
  | succ n ih =>
    intro fuel2 s h1 h2
    match s with
    | [] => simp [scanSubF]
    | c :: cs =>
      match fuel2 with
      | 0 => simp at h2
      | m + 1 =>
        simp only [List.length_cons, Nat.add_le_add_iff_right] at h1 h2
        cases hfc : f (c :: cs) with
        | none =>
          simp only [scanSubF, hfc]
          exact congrArg _ (ih m cs h1 h2)
        | some kr =>
          obtain ⟨k, rep⟩ := kr
          simp only [scanSubF, hfc]
          refine congrArg _ (ih m (cs.drop k) ?_ ?_) <;>
            simp only [List.length_drop] <;> omega

/-- If no suffix of `s` matches, the scan leaves `s` unchanged. -/
theorem scanSubF_id_of_none (f : List Char → Option (Nat × List Char)) :
    ∀ (fuel : Nat) (s : List Char), s.length ≤ fuel →
      (∀ t, t <:+ s → f t = none) → scanSubF f fuel s = s := by
  intro fuel
  induction fuel with
  | zero =>
    intro s h1 _
    have : s = [] := List.eq_nil_of_length_eq_zero (Nat.le_zero.mp h1)
    subst this
    simp [scanSubF]
  | succ n ih =>
    intro s h1 h
    match s with
    | [] => simp [scanSubF]
    | c :: cs =>
      have hfc : f (c :: cs) = none := h _ (List.suffix_refl _)
      simp only [scanSubF, hfc]
      refine congrArg _ (ih cs ?_ ?_)
      · simp only [List.length_cons, Nat.add_le_add_iff_right] at h1; exact h1
      · intro t ht
        exact h t (ht.trans (List.suffix_cons c cs))

/-- If every match in `s` replaces the matched text by itself, the scan
leaves `s` unchanged. -/
theorem scanSubF_id_of_selfRep (f : List Char → Option (Nat × List Char)) :
    ∀ (fuel : Nat) (s : List Char), s.length ≤ fuel →
      (∀ t, t <:+ s → ∀ k rep, f t = some (k, rep) → rep = t.take (k + 1)) →
      scanSubF f fuel s = s := by
  intro fuel
  induction fuel with
  | zero =>
    intro s h1 _
    have : s = [] := List.eq_nil_of_length_eq_zero (Nat.le_zero.mp h1)
    subst this
    simp [scanSubF]
  | succ n ih =>
    intro s h1 h
    match s with
    | [] => simp [scanSubF]
    | c :: cs =>
      simp only [List.length_cons, Nat.add_le_add_iff_right] at h1
      cases hfc : f (c :: cs) with
      | none =>
        simp only [scanSubF, hfc]
        refine congrArg _ (ih cs h1 ?_)
        intro t ht
        exact h t (ht.trans (List.suffix_cons c cs))
      | some kr =>
        obtain ⟨k, rep⟩ := kr
        have hrep : rep = (c :: cs).take (k + 1) := h _ (List.suffix_refl _) k rep hfc
        simp only [scanSubF, hfc]
        have hdrop : scanSubF f n (cs.drop k) = cs.drop k := by
          refine ih (cs.drop k) ?_ ?_
          · simp only [List.length_drop]; omega
          · intro t ht
            exact h t (ht.trans ((List.drop_suffix k cs).trans (List.suffix_cons c cs)))
        rw [hdrop, hrep]
        simp only [List.take_succ_cons]
        rw [List.cons_append, List.take_append_drop]

/-- Decomposition of a scan around a unique match: if `f` matches at the
start of `m ++ b`, consuming exactly `m`, and no longer suffix (i.e. no
position inside `a`) matches, the scan emits `a`, the replacement, and
the scan of `b`. -/
theorem scanSubF_single (f : List Char → Option (Nat × List Char))
    (m b rep : List Char) (hne : m ≠ [])
    (hm : f (m ++ b) = some (m.length - 1, rep)) :
    ∀ (a : List Char) (fuel : Nat), (a ++ m ++ b).length ≤ fuel →
      (∀ t, t <:+ a ++ m ++ b → (m ++ b).length < t.length → f t = none) →
      scanSubF f fuel (a ++ m ++ b) = a ++ rep ++ scanSubF f b.length b := by
  intro a
  induction a with
  | nil =>
    intro fuel h1 _
    match m, hne with
    | c :: m', _ =>
      match fuel with
      | 0 => simp at h1
      | n + 1 =>
        simp only [List.nil_append, List.cons_append]
        have hm' : f (c :: (m' ++ b)) = some (m'.length, rep) := by
          simpa using hm
        rw [scanSubF_cons_some f n c (m' ++ b) m'.length rep hm']
        have hdrop : (m' ++ b).drop m'.length = b := List.drop_left m' b
        rw [hdrop]
        refine congrArg _ (scanSubF_congr_fuel f n b.length b ?_ (le_refl _))
        simp only [List.cons_append, List.length_cons, List.length_append] at h1
        omega
  | cons c a' ih =>
    intro fuel h1 hpre
    match fuel with
    | 0 => simp at h1
    | n + 1 =>
      have hfc : f (c :: (a' ++ m ++ b)) = none := by
        refine hpre _ (by simp [List.cons_append]) ?_
        simp only [List.length_cons, List.length_append]
        omega
      simp only [List.cons_append]
      rw [scanSubF_cons_none f n c (a' ++ m ++ b) hfc]
      rw [ih n ?_ ?_]
      · simp only [List.length_cons, List.length_append] at h1 ⊢; omega
      · intro t ht hlen
        have hsuf : a' ++ m ++ b <:+ c :: a' ++ m ++ b := by
          rw [List.cons_append]
          exact List.suffix_cons c (a' ++ m ++ b)
        exact hpre t (ht.trans hsuf) hlen

/-- `scanSub` version of `scanSubF_id_of_none`. -/
theorem scanSub_id_of_none (f : List Char → Option (Nat × List Char)) (s : List Char)
    (h : ∀ t, t <:+ s → f t = none) : scanSub f s = s :=
  scanSubF_id_of_none f s.length s (le_refl _) h

/-- `scanSub` version of `scanSubF_id_of_selfRep`. -/
theorem scanSub_id_of_selfRep (f : List Char → Option (Nat × List Char)) (s : List Char)
    (h : ∀ t, t <:+ s → ∀ k rep, f t = some (k, rep) → rep = t.take (k + 1)) :
    scanSub f s = s :=
  scanSubF_id_of_selfRep f s.length s (le_refl _) h

/-- `scanSub` version of `scanSubF_single`. -/
theorem scanSub_single (f : List Char → Option (Nat × List Char))
    (a m b rep : List Char) (hne : m ≠ [])
    (hm : f (m ++ b) = some (m.length - 1, rep))
    (hpre : ∀ t, t <:+ a ++ m ++ b → (m ++ b).length < t.length → f t = none) :
    scanSub f (a ++ m ++ b) = a ++ rep ++ scanSub f b :=
  scanSubF_single f m b rep hne hm a (a ++ m ++ b).length (le_refl _) hpre

/-! ### Last-write lookup lemmas -/

/-- Folding the lookup step over `gs` from any accumulator: a write to
`p` in `gs` wins, otherwise the accumulator survives. -/
theorem lookupLast_foldl_acc (gs : List (List Char × FileData)) (p : List Char) :
    ∀ acc : Option FileData,
      gs.foldl (fun a qd => if qd.1 = p then some qd.2 else a) acc =
        match lookupLast gs p with
        | some d => some d
        | none => acc := by
  induction gs with
  | nil => intro acc; simp [lookupLast]
  | cons qd gs ih =>
    intro acc
    have hl : lookupLast (qd :: gs) p =
        match lookupLast gs p with
        | some d => some d
        | none => if qd.1 = p then some qd.2 else none := by
      simpa [lookupLast] using ih (if qd.1 = p then some qd.2 else none)
    simp only [List.foldl_cons]
    rw [ih (if qd.1 = p then some qd.2 else acc), hl]
    cases lookupLast gs p with
    | some d => simp
    | none =>
      by_cases h : qd.1 = p <;> simp [h]

/-- Lookup across an append when the right part never writes `p`. -/
theorem lookupLast_append_right_none (fs gs : List (List Char × FileData)) (p : List Char)
    (h : lookupLast gs p = none) : lookupLast (fs ++ gs) p = lookupLast fs p := by
  unfold lookupLast
  rw [List.foldl_append, lookupLast_foldl_acc gs p, h]

/-- Lookup across an append when the right part writes `p`. -/
theorem lookupLast_append_right_some (fs gs : List (List Char × FileData)) (p : List Char)
    (d : FileData) (h : lookupLast gs p = some d) : lookupLast (fs ++ gs) p = some d := by
  unfold lookupLast
  rw [List.foldl_append, lookupLast_foldl_acc gs p, h]

/-- Paths never written look up to `none`. -/
theorem lookupLast_eq_none (gs : List (List Char × FileData)) (p : List Char)
    (h : ∀ qd ∈ gs, qd.1 ≠ p) : lookupLast gs p = none := by
  induction gs with
  | nil => rfl
  | cons qd gs ih =>
    have h1 : qd.1 ≠ p := h qd (List.mem_cons_self qd gs)
    have hl : lookupLast (qd :: gs) p =
        match lookupLast gs p with
        | some d => some d
        | none => if qd.1 = p then some qd.2 else none := by
      simpa [lookupLast] using
        lookupLast_foldl_acc gs p (if qd.1 = p then some qd.2 else none)
    rw [hl, ih (fun x hx => h x (List.mem_cons_of_mem qd hx))]
    simp [h1]

/-- Lookup of a one-element write list. -/
theorem lookupLast_singleton (q : List Char) (d : FileData) (p : List Char) :
    lookupLast [(q, d)] p = if q = p then some d else none := rfl

/-- Converse of `lookupLast_eq_none`: a `none` lookup means no write. -/
theorem lookupLast_eq_none_mem (gs : List (List Char × FileData)) (p : List Char)
    (h : lookupLast gs p = none) : ∀ qd ∈ gs, qd.1 ≠ p := by
  induction gs with
  | nil => intro qd hqd; simp at hqd
  | cons qd gs ih =>
    have hl : lookupLast (qd :: gs) p =
        match lookupLast gs p with
        | some e => some e
        | none => if qd.1 = p then some qd.2 else none := by
      simpa [lookupLast] using
        lookupLast_foldl_acc gs p (if qd.1 = p then some qd.2 else none)
    rw [hl] at h
    cases hgs : lookupLast gs p with
    | some e => simp only [hgs] at h; exact Option.noConfusion h
    | none =>
      simp only [hgs] at h
      intro x hx
      rcases List.mem_cons.mp hx with hx1 | hx2
      · subst hx1
        intro hq
        rw [if_pos hq] at h
        exact Option.noConfusion h
      · exact ih hgs x hx2

/-- A successful lookup comes from some write event. -/
theorem lookupLast_isSome_mem (gs : List (List Char × FileData)) (p : List Char)
    (d : FileData) (h : lookupLast gs p = some d) : ∃ qd ∈ gs, qd.1 = p ∧ qd.2 = d := by
  induction gs with
  | nil => simp [lookupLast] at h
  | cons qd gs ih =>
    have hl : lookupLast (qd :: gs) p =
        match lookupLast gs p with
        | some e => some e
        | none => if qd.1 = p then some qd.2 else none := by
      simpa [lookupLast] using
        lookupLast_foldl_acc gs p (if qd.1 = p then some qd.2 else none)
    rw [hl] at h
    cases hgs : lookupLast gs p with
    | some e =>
      simp only [hgs, Option.some.injEq] at h
      obtain ⟨x, hx, h1, h2⟩ := ih (hgs.trans (congrArg some h))
      exact ⟨x, List.mem_cons_of_mem qd hx, h1, h2⟩
    | none =>
      simp only [hgs] at h
      by_cases hq : qd.1 = p
      · rw [if_pos hq] at h
        exact ⟨qd, List.mem_cons_self qd gs, hq, (Option.some.injEq _ _).mp h⟩
      · rw [if_neg hq] at h
        exact absurd h (by simp)

/-- If `(p, d)` occurs in `gs` and every write to `p` in `gs` writes `d`,
the lookup returns `d`. -/
theorem lookupLast_eq_some_of_unique (gs : List (List Char × FileData)) (p : List Char)
    (d : FileData) (hmem : ∃ qd ∈ gs, qd = (p, d))
    (huniq : ∀ qd ∈ gs, qd.1 = p → qd.2 = d) : lookupLast gs p = some d := by
  induction gs with
  | nil => obtain ⟨x, hx, _⟩ := hmem; exact absurd hx (List.not_mem_nil x)
  | cons qd gs ih =>
    have hl : lookupLast (qd :: gs) p =
        match lookupLast gs p with
        | some e => some e
        | none => if qd.1 = p then some qd.2 else none := by
      simpa [lookupLast] using
        lookupLast_foldl_acc gs p (if qd.1 = p then some qd.2 else none)
    rw [hl]
    cases hgs : lookupLast gs p with
    | some e =>
      simp only [hgs]
      obtain ⟨x, hx, h1, h2⟩ := lookupLast_isSome_mem gs p e hgs
      have hxd : x.2 = d := huniq x (List.mem_cons_of_mem qd hx) h1
      rw [← h2, hxd]
    | none =>
      simp only [hgs]
      obtain ⟨x, hx, hxeq⟩ := hmem
      rcases List.mem_cons.mp hx with hx1 | hx2
      · rw [← hx1, hxeq]
        simp
      · exfalso
        have hno := lookupLast_eq_none_mem gs p hgs x hx2
        rw [hxeq] at hno
        exact hno rfl

/-! ### Extraction lemmas -/

/-- Unfolding of the last-write lookup on a cons. -/
theorem lookupLast_cons (qd : List Char × FileData) (gs : List (List Char × FileData))
    (p : List Char) :
    lookupLast (qd :: gs) p =
      match lookupLast gs p with
      | some e => some e
      | none => if qd.1 = p then some qd.2 else none := by
  simpa [lookupLast] using lookupLast_foldl_acc gs p (if qd.1 = p then some qd.2 else none)

/-- A write event comes only from a `wrote` outcome. -/
theorem writeOf_eq_some (r : EntryResult) (qd : List Char × FileData)
    (h : writeOf r = some qd) : r = .wrote qd.1 qd.2 := by
  cases r with
  | skipNoUrl => exact Option.noConfusion h
  | skipNoHost => exact Option.noConfusion h
  | skipImage a => exact Option.noConfusion h
  | skipNoBody a b => exact Option.noConfusion h
  | failed a => exact Option.noConfusion h
  | wrote q d =>
    simp only [writeOf, Option.some.injEq] at h
    rw [← h]

/-- The hosts artifact is the last write to its path. -/
theorem extractFiles_hosts_lookup (entries : List HarEntry) :
    lookupLast (extractFiles entries) hostsFilePath =
      some (.text (hostsFileContent entries)) := by
  unfold extractFiles
  apply lookupLast_append_right_some
  rw [lookupLast_singleton, if_pos rfl]

/-- An entry satisfying the claim's conditions produces a write of its
body at its derived path. -/
theorem processEntry_wrote_of (e : HarEntry) (d : FileData)
    (hhost : (urlparse e.request.url).1 ≠ [])
    (himg : isImagePath (entryPath e) = false)
    (hbody : bodyData e = some d) :
    processEntry e = .wrote (entryPath e) d := by
  have hurl : ¬ e.request.url = [] := by
    intro h
    rw [h] at hhost
    exact hhost rfl
  unfold entryPath at himg ⊢
  unfold bodyData at hbody
  cases htext : e.response.content.text with
  | none => rw [htext] at hbody; exact Option.noConfusion hbody
  | some t =>
    simp only [htext] at hbody
    by_cases henc : e.response.content.encoding = some "base64".toList
    · simp only [if_pos henc] at hbody
      cases hb : b64decode t with
      | none => rw [hb] at hbody; exact Option.noConfusion hbody
      | some bs =>
        rw [hb] at hbody
        simp only [Option.map_some', Option.some.injEq] at hbody
        subst hbody
        simp [processEntry, hurl, hhost, himg, htext, henc, hb]
    · simp only [if_neg henc, Option.some.injEq] at hbody
      subst hbody
      simp only [processEntry, hurl, hhost, himg, htext, henc]
      simp [hurl, hhost, himg]

/-- After `extract_har`, a path written by `e` and by no later entry
holds `e`'s data (the hosts artifact path aside). -/
theorem extract_lookup_last_writer (l1 l2 : List HarEntry) (e : HarEntry)
    (p : List Char) (d : FileData)
    (he : processEntry e = .wrote p d)
    (hl2 : ∀ e' ∈ l2, ∀ d', processEntry e' ≠ .wrote p d')
    (hp : p ≠ hostsFilePath) :
    lookupLast (extractFiles (l1 ++ e :: l2)) p = some d := by
  unfold extractFiles
  rw [lookupLast_append_right_none]
  · unfold extractWrites
    rw [List.filterMap_append]
    have hcons : List.filterMap (fun e' => writeOf (processEntry e')) (e :: l2) =
        (p, d) :: List.filterMap (fun e' => writeOf (processEntry e')) l2 := by
      rw [List.filterMap_cons]
      simp [he, writeOf]
    rw [hcons]
    have hnone2 : lookupLast
        (List.filterMap (fun e' => writeOf (processEntry e')) l2) p = none := by
      apply lookupLast_eq_none
      intro qd hqd hq1
      rw [List.mem_filterMap] at hqd
      obtain ⟨e', he', hw⟩ := hqd
      have := writeOf_eq_some _ _ hw
      rw [hq1] at this
      exact hl2 e' he' qd.2 this
    apply lookupLast_append_right_some
    rw [lookupLast_cons, hnone2]
    simp
  · rw [lookupLast_singleton, if_neg]
    intro h
    exact hp h.symm

/-! ### Host-set lemmas -/

/-- Membership in `insertIfAbsent`. -/
theorem mem_insertIfAbsent (x y : List Char) (l : List (List Char)) :
    y ∈ insertIfAbsent x l ↔ y ∈ l ∨ y = x := by
  unfold insertIfAbsent
  by_cases h : x ∈ l
  · rw [if_pos h]
    constructor
    · exact Or.inl
    · rintro (hy | rfl)
      · exact hy
      · exact h
  · rw [if_neg h]
    simp [List.mem_append]

/-- `insertIfAbsent` preserves distinctness. -/
theorem nodup_insertIfAbsent (x : List Char) (l : List (List Char)) (h : l.Nodup) :
    (insertIfAbsent x l).Nodup := by
  unfold insertIfAbsent
  by_cases hx : x ∈ l
  · rw [if_pos hx]; exact h
  · rw [if_neg hx]
    rw [List.nodup_append]
    exact ⟨h, List.nodup_singleton x, by simpa [List.disjoint_singleton] using hx⟩

/-- Membership in the `hosts` fold from any accumulator. -/
theorem extractHosts_foldl_mem (x : List Char) :
    ∀ (entries : List HarEntry) (acc : List (List Char)),
      x ∈ entries.foldl (fun acc e => match entryHost e with
        | some h => insertIfAbsent h acc
        | none => acc) acc ↔
      x ∈ acc ∨ ∃ e ∈ entries, entryHost e = some x := by
  intro entries
  induction entries with
  | nil => intro acc; simp
  | cons e rest ih =>
    intro acc
    simp only [List.foldl_cons]
    cases heh : entryHost e with
    | none =>
      simp only [heh]
      rw [ih]
      constructor
      · rintro (hx | ⟨e', he', hh⟩)
        · exact Or.inl hx
        · exact Or.inr ⟨e', List.mem_cons_of_mem e he', hh⟩
      · rintro (hx | ⟨e', he', hh⟩)
        · exact Or.inl hx
        · rcases List.mem_cons.mp he' with rfl | he2
          · rw [heh] at hh; exact Option.noConfusion hh
          · exact Or.inr ⟨e', he2, hh⟩
    | some h =>
      simp only [heh]
      rw [ih, mem_insertIfAbsent]
      constructor
      · rintro ((hx | rfl) | ⟨e', he', hh⟩)
        · exact Or.inl hx
        · exact Or.inr ⟨e, List.mem_cons_self e rest, heh⟩
        · exact Or.inr ⟨e', List.mem_cons_of_mem e he', hh⟩
      · rintro (hx | ⟨e', he', hh⟩)
        · exact Or.inl (Or.inl hx)
        · rcases List.mem_cons.mp he' with rfl | he2
          · rw [heh] at hh
            exact Or.inl (Or.inr (by injection hh with hh; exact hh.symm))
          · exact Or.inr ⟨e', he2, hh⟩

/-- Membership in the accumulated host set. -/
theorem extractHosts_mem (entries : List HarEntry) (x : List Char) :
    x ∈ extractHosts entries ↔ ∃ e ∈ entries, entryHost e = some x := by
  unfold extractHosts
  rw [extractHosts_foldl_mem]
  simp

/-- The hosts fold keeps the accumulator distinct. -/
theorem extractHosts_foldl_nodup :
    ∀ (entries : List HarEntry) (acc : List (List Char)), acc.Nodup →
      (entries.foldl (fun acc e => match entryHost e with
        | some h => insertIfAbsent h acc
        | none => acc) acc).Nodup := by
  intro entries
  induction entries with
  | nil => intro acc h; simpa
  | cons e rest ih =>
    intro acc h
    simp only [List.foldl_cons]
    cases heh : entryHost e with
    | none => simp only [heh]; exact ih acc h
    | some hh => simp only [heh]; exact ih _ (nodup_insertIfAbsent hh acc h)

/-- The accumulated host set is distinct. -/
theorem extractHosts_nodup (entries : List HarEntry) : (extractHosts entries).Nodup :=
  extractHosts_foldl_nodup entries [] List.nodup_nil

/-- `entryHost` written as the amended claim's filter condition. -/
theorem entryHost_eq_c3 (e : HarEntry) :
    entryHost e = (if e.request.url ≠ [] ∧ (urlparse e.request.url).1 ≠ []
      then some (urlparse e.request.url).1 else none) := by
  unfold entryHost
  by_cases h1 : e.request.url = []
  · simp [h1]
  · by_cases h2 : (urlparse e.request.url).1 = []
    · simp [h1, h2]
    · simp [h1, h2]

/-! ### Claim theorems: extractor side -/

/-- C1, counterexample: an entry with the non-empty URL `app.js`, a
non-image derived path (`app.js`) and a present body is skipped by
`extract_har` because its URL has an empty netloc, so — contrary to the
claim — no file exists at the derived path after extraction. -/
theorem c1_counterexample :
    lookupLast (extractFiles [exEntryNoHost]) "app.js".toList = none := by decide

/-- C1 (amended): for every HAR entry whose URL has a non-empty
authority, whose derived path is not an image and differs from the
hosts-artifact path, whose body is present and decodes (valid base64
when `encoding` is `"base64"`, literal text otherwise), and which is the
last entry writing that derived path, after `extract_har` the file at
the derived path is byte-identical to the decoded body. -/
theorem c1_extracted_file_holds_body (l1 l2 : List HarEntry) (e : HarEntry) (d : FileData)
    (hhost : (urlparse e.request.url).1 ≠ [])
    (himg : isImagePath (entryPath e) = false)
    (hbody : bodyData e = some d)
    (hlast : ∀ e' ∈ l2, ∀ d', processEntry e' ≠ .wrote (entryPath e) d')
    (hhf : entryPath e ≠ hostsFilePath) :
    lookupLast (extractFiles (l1 ++ e :: l2)) (entryPath e) = some d :=
  extract_lookup_last_writer l1 l2 e (entryPath e) d
    (processEntry_wrote_of e d hhost himg hbody) hlast hhf

/-- Witness for C1 (amended) at a concrete one-entry HAR. -/
theorem c1_witness :
    lookupLast (extractFiles ([] ++ exEntryText :: [])) (entryPath exEntryText) =
      some (.text "hi".toList) :=
  c1_extracted_file_holds_body [] [] exEntryText (.text "hi".toList)
    (by decide) (by decide) (by decide)
    (fun e' he' => absurd he' (List.not_mem_nil e'))
    (by decide)

/-- C3, counterexample: with entries `foo` (non-empty URL, empty netloc)
and `http://a/x`, the file written by `extract_har` contains `a`, while
the claim's reading — netloc strings over all entries with a non-empty
URL — yields the sorted set containing the empty netloc, joined as
`"\na"`. -/
theorem c3_counterexample :
    hostsFileContent c3Entries ≠ c3ClaimContent c3Entries := by decide

/-- C3 (amended): the file `extracted_hosts.txt` contains exactly the
sorted, newline-joined set of distinct netlocs over all entries with a
non-empty URL and a non-empty netloc (entries whose URL has an empty
authority contribute nothing). -/
theorem c3_hosts_file_content (entries : List HarEntry) :
    hostsFileContent entries = c3AmendedContent entries := by
  unfold hostsFileContent c3AmendedContent
  congr 1
  refine List.eq_of_perm_of_sorted ?_ (List.sorted_insertionSort _ _)
    (List.sorted_insertionSort _ _)
  have hperm : (extractHosts entries).Perm
      (List.dedup (entries.filterMap (fun e =>
        if e.request.url ≠ [] ∧ (urlparse e.request.url).1 ≠ []
        then some (urlparse e.request.url).1 else none))) := by
    rw [List.perm_ext_iff_of_nodup (extractHosts_nodup entries) (List.nodup_dedup _)]
    intro a
    rw [extractHosts_mem, List.mem_dedup, List.mem_filterMap]
    constructor
    · rintro ⟨e, he, hh⟩
      refine ⟨e, he, ?_⟩
      rw [← entryHost_eq_c3]
      exact hh
    · rintro ⟨e, he, hh⟩
      refine ⟨e, he, ?_⟩
      rw [entryHost_eq_c3]
      exact hh
  exact (List.perm_insertionSort _ _).trans
    (hperm.trans (List.perm_insertionSort _ _).symm)

/-- C6: a per-entry failure (the caught decode/write exception) removes
only that entry's write: the remaining entries' files are all written,
the offending path is reported by the error log, and the hosts artifact
is still written afterwards with the full host set. -/
theorem c6_failure_does_not_abort (l1 l2 : List HarEntry) (e : HarEntry) (p : List Char)
    (hf : processEntry e = .failed p) :
    extractWrites (l1 ++ e :: l2) = extractWrites l1 ++ extractWrites l2 ∧
    p ∈ errorsOf (l1 ++ e :: l2) ∧
    lookupLast (extractFiles (l1 ++ e :: l2)) hostsFilePath =
      some (.text (hostsFileContent (l1 ++ e :: l2))) := by
  refine ⟨?_, ?_, extractFiles_hosts_lookup _⟩
  · unfold extractWrites
    rw [List.filterMap_append, List.filterMap_cons]
    simp [hf, writeOf]
  · unfold errorsOf
    rw [List.mem_filterMap]
    exact ⟨e, by simp, by rw [hf]⟩

/-- Witness for C6 at a concrete three-entry HAR whose middle entry has
an invalid base64 body. -/
theorem c6_witness :
    extractWrites ([exEntryText] ++ exEntryBadB64 :: [exEntryText2]) =
      extractWrites [exEntryText] ++ extractWrites [exEntryText2] ∧
    "b.bin".toList ∈ errorsOf ([exEntryText] ++ exEntryBadB64 :: [exEntryText2]) ∧
    lookupLast (extractFiles ([exEntryText] ++ exEntryBadB64 :: [exEntryText2]))
        hostsFilePath =
      some (.text (hostsFileContent ([exEntryText] ++ exEntryBadB64 :: [exEntryText2]))) :=
  c6_failure_does_not_abort [exEntryText] [exEntryText2] exEntryBadB64
    "b.bin".toList (by decide)

/-- C8: the copy phase of `main` places every file of the staging tree —
the hosts artifact included — at the same relative path directly under
the target root, with identical content. -/
theorem c8_copy_to_target_root (entries : List HarEntry) :
    lookupLast (mainFiles entries) hostsFilePath =
      some (.text (hostsFileContent entries)) ∧
    ∀ p d, lookupLast (extractFiles entries) p = some d →
      lookupLast (mainFiles entries) p = some d := by
  have key : ∀ p d, lookupLast (extractFiles entries) p = some d →
      lookupLast (mainFiles entries) p = some d := by
    intro p d h
    unfold mainFiles
    apply lookupLast_append_right_some
    apply lookupLast_eq_some_of_unique
    · obtain ⟨x, hx, hx1, _⟩ := lookupLast_isSome_mem _ _ _ h
      refine ⟨(p, d), ?_, rfl⟩
      rw [List.mem_filterMap]
      refine ⟨x, hx, ?_⟩
      rw [hx1, h]
      rfl
    · intro qd hqd hq1
      rw [List.mem_filterMap] at hqd
      obtain ⟨x, hx, hfx⟩ := hqd
      cases hlx : lookupLast (extractFiles entries) x.1 with
      | none => rw [hlx] at hfx; exact Option.noConfusion hfx
      | some d' =>
        rw [hlx] at hfx
        have hqd' : qd = (x.1, d') := by
          simpa using hfx.symm
        rw [hqd'] at hq1 ⊢
        rw [hq1] at hlx
        have : d = d' := by
          have h2 := h.symm.trans hlx
          exact (Option.some.injEq _ _).mp h2
        rw [← this]
  exact ⟨key hostsFilePath _ (extractFiles_hosts_lookup entries), key⟩

/-- Witness for C8 at a concrete one-entry HAR: both the hosts artifact
and the extracted file appear directly under the target root. -/
theorem c8_witness :
    lookupLast (mainFiles [exEntryText]) hostsFilePath =
      some (.text (hostsFileContent [exEntryText])) ∧
    lookupLast (mainFiles [exEntryText]) "a.txt".toList = some (.text "hi".toList) :=
  ⟨(c8_copy_to_target_root [exEntryText]).1,
   (c8_copy_to_target_root [exEntryText]).2 "a.txt".toList
     (.text "hi".toList) (by decide)⟩

/-- C10: for an entry whose parsed URL path consists only of slashes
(the root path `/` included), the derived local path is
`host ++ "/index.html"` — the same as for a completely empty path,
because the leading slashes are stripped before the empty-path check. -/
theorem c10_all_slash_path (e : HarEntry)
    (hhost : (urlparse e.request.url).1 ≠ [])
    (hslash : ∀ c ∈ (urlparse e.request.url).2, c = '/') :
    entryPath e = (urlparse e.request.url).1 ++ "/index.html".toList ∧
    entryPath e = derivedPath (urlparse e.request.url).1 [] := by
  have hdw : dropSlashes (urlparse e.request.url).2 = [] := by
    rw [dropSlashes, List.dropWhile_eq_nil_iff]
    intro x hx
    simpa using hslash x hx
  have hkey : pctDecode (List.dropWhile (fun x => decide (x = '/'))
      (urlparse e.request.url).2) = [] := by
    rw [dropSlashes] at hdw
    rw [hdw]
    rfl
  unfold entryPath
  constructor <;> simp [derivedPath, dropSlashes, hkey, pctDecode]

/-- Witness for C10 at the URL `http://h/`. -/
theorem c10_witness :
    entryPath exEntrySlash = (urlparse exEntrySlash.request.url).1 ++ "/index.html".toList ∧
    entryPath exEntrySlash = derivedPath (urlparse exEntrySlash.request.url).1 [] :=
  c10_all_slash_path exEntrySlash (by decide) (by decide)

/-! ### Patcher lemmas -/

/-- With an empty host set the replacer returns the matched text. -/
theorem replacer_empty_hosts (g0 url : List Char) : replacer [] g0 url = g0 := by
  unfold replacer
  by_cases h : isImagePath url
  · rw [if_pos h]
  · rw [if_neg h]
    rfl

/-- With an empty host set every tag match replaces itself. -/
theorem tagFind_empty_selfRep (tag attr : List Char) (t : List Char) (k : Nat)
    (rep : List Char) (h : tagFind tag attr [] t = some (k, rep)) :
    rep = t.take (k + 1) := by
  unfold tagFind at h
  by_cases hp : tag.isPrefixOf t
  · rw [if_pos hp] at h
    cases hscan : tagScan attr (t.drop tag.length)
        (((t.drop tag.length).takeWhile (· ≠ '>')).length) with
    | none =>
      simp only [hscan] at h
      exact Option.noConfusion h
    | some km =>
      obtain ⟨k', m⟩ := km
      simp only [hscan, Option.some.injEq, Prod.mk.injEq] at h
      obtain ⟨hk, hrep⟩ := h
      rw [← hrep, replacer_empty_hosts, ← hk]
      have htot : tag.length + k' + attr.length + m + 1 - 1 + 1 =
          tag.length + k' + attr.length + m + 1 := by omega
      rw [htot]
  · rw [if_neg hp] at h
    exact Option.noConfusion h

/-- A needle occurring in the haystack has a first occurrence. -/
theorem afterFirst_isSome_of_infix (needle : List Char) :
    ∀ hay : List Char, infixOfB needle hay = true →
      ∃ r, afterFirst needle hay = some r := by
  intro hay
  induction hay with
  | nil =>
    intro h
    unfold infixOfB at h
    unfold afterFirst
    rw [if_pos h]
    exact ⟨[], rfl⟩
  | cons c cs ih =>
    intro h
    unfold infixOfB at h
    unfold afterFirst
    by_cases hp : needle.isPrefixOf (c :: cs) = true
    · rw [if_pos hp]
      exact ⟨_, rfl⟩
    · rw [if_neg hp]
      apply ih
      simpa [hp] using h

/-- Under `patchNoOpCheck` every pass of `patch_index` is the identity,
hence so is the whole transformation. -/
theorem patch_index_noop (hosts : List (List Char)) (s : List Char)
    (h : patchNoOpCheck hosts s = true) : patch_index hosts s = s := by
  rw [patchNoOpCheck, List.all_eq_true] at h
  have hs : ∀ t, t <:+ s →
      selfRepB (tagFind scriptTag srcAttr hosts) t = true ∧
      selfRepB (tagFind linkTag hrefAttr hosts) t = true ∧
      (cssImportFind t).isNone = true ∧ (nextFind1 t).isNone = true ∧
      (nextFind2 t).isNone = true ∧
      (attrStripFind "integrity".toList t).isNone = true ∧
      (attrStripFind "crossorigin".toList t).isNone = true := by
    intro t ht
    have := h t ((List.mem_tails t s).mpr ht)
    simp only [Bool.and_eq_true] at this
    obtain ⟨⟨⟨⟨⟨⟨hA, hB⟩, hC⟩, hD⟩, hE⟩, hF⟩, hG⟩ := this
    exact ⟨hA, hB, hC, hD, hE, hF, hG⟩
  have hself : ∀ (f : List Char → Option (Nat × List Char)),
      (∀ t, t <:+ s → selfRepB f t = true) →
      ∀ t, t <:+ s → ∀ k rep, f t = some (k, rep) → rep = t.take (k + 1) := by
    intro f hall t ht k rep hf
    have := hall t ht
    unfold selfRepB at this
    rw [hf] at this
    exact eq_of_beq this
  have h1 : scriptSub hosts s = s :=
    scanSub_id_of_selfRep _ _ (hself _ (fun t ht => (hs t ht).1))
  have h2 : linkSub hosts s = s :=
    scanSub_id_of_selfRep _ _ (hself _ (fun t ht => (hs t ht).2.1))
  have h3 : cssImportSub s = s :=
    scanSub_id_of_none _ _ (fun t ht => Option.isNone_iff_eq_none.mp (hs t ht).2.2.1)
  have h4 : nextSub1 s = s :=
    scanSub_id_of_none _ _ (fun t ht => Option.isNone_iff_eq_none.mp (hs t ht).2.2.2.1)
  have h5 : nextSub2 s = s :=
    scanSub_id_of_none _ _ (fun t ht => Option.isNone_iff_eq_none.mp (hs t ht).2.2.2.2.1)
  have h6 : integritySub s = s :=
    scanSub_id_of_none _ _ (fun t ht => Option.isNone_iff_eq_none.mp (hs t ht).2.2.2.2.2.1)
  have h7 : crossoriginSub s = s :=
    scanSub_id_of_none _ _ (fun t ht => Option.isNone_iff_eq_none.mp (hs t ht).2.2.2.2.2.2)
  unfold patch_index
  rw [h1, h2, h3, h4, h5, h6, h7]

/-! ### Claim theorems: patcher side -/

/-- C9: with an empty host set, `patch_index` leaves every
`<script src>` and `<link href>` tag unchanged (those two passes are the
identity for every document), so the whole transformation equals the
host-independent tail that still rewrites `@import` URLs, rewrites every
absolute and protocol-relative `_next/static/` prefix, and strips
`integrity` and `crossorigin` attributes — demonstrated on a concrete
document. -/
theorem c9_empty_host_set :
    (∀ s : List Char, patch_index [] s =
      crossoriginSub (integritySub (nextSub2 (nextSub1 (cssImportSub s))))) ∧
    patch_index []
        "<script src=\"https://x/a.js\"> //y/_next/static/b.js <link href=\"http://z/c.css\" integrity=\"q\">".toList =
      "<script src=\"https://x/a.js\"> ./_next/static/b.js <link href=\"http://z/c.css\">".toList := by
  constructor
  · intro s
    unfold patch_index
    rw [show scriptSub [] s = s from scanSub_id_of_selfRep _ _
      (fun t _ k rep h => tagFind_empty_selfRep scriptTag srcAttr t k rep h)]
    rw [show linkSub [] s = s from scanSub_id_of_selfRep _ _
      (fun t _ k rep h => tagFind_empty_selfRep linkTag hrefAttr t k rep h)]
  · decide

/-- C2, counterexample: the URL `https://h/_next/static/a.png` ends in a
recognized image extension, yet the `_next/static` pass of `patch_index`
rewrites it, so the patched document no longer contains that URL —
contradicting the claim that every image URL is left textually
unchanged. -/
theorem c2_counterexample :
    patch_index ["h".toList] "x https://h/_next/static/a.png y".toList =
      "x ./_next/static/a.png y".toList ∧
    infixOfB "https://h/_next/static/a.png".toList
      (patch_index ["h".toList] "x https://h/_next/static/a.png y".toList) = false := by
  constructor <;> decide

/-- C2 (amended): entries whose derived path ends in a recognized image
extension produce no write event in `extract_har`; in the script-src and
link-href rewriting, a matched URL ending in an image extension leaves
the matched tag text unchanged (so the concrete `<img>` document is
byte-identical under patching); the `@import` and `_next/static` passes,
however, apply regardless of extension. -/
theorem c2_images_skipped :
    (∀ e : HarEntry, isImagePath (entryPath e) = true →
      writeOf (processEntry e) = none) ∧
    (∀ (hosts : List (List Char)) (g0 url : List Char), isImagePath url = true →
      replacer hosts g0 url = g0) ∧
    patch_index ["cdn.example.com".toList]
        "<img src=\"https://cdn.example.com/logo.png\">".toList =
      "<img src=\"https://cdn.example.com/logo.png\">".toList := by
  refine ⟨?_, ?_, by decide⟩
  · intro e himg
    unfold entryPath at himg
    unfold processEntry
    by_cases h1 : e.request.url = []
    · simp [h1, writeOf]
    · by_cases h2 : (urlparse e.request.url).1 = []
      · simp [h1, h2, writeOf]
      · simp [h1, h2, himg, writeOf]
  · intro hosts g0 url h
    unfold replacer
    rw [if_pos h]

/-- Witness for C2 (amended) at a concrete image entry and a concrete
image URL in a tag. -/
theorem c2_witness :
    writeOf (processEntry exEntryImg) = none ∧
    replacer ["h".toList] "<script src=\"a.png\"".toList "a.png".toList =
      "<script src=\"a.png\"".toList :=
  ⟨c2_images_skipped.1 exEntryImg (by decide),
   c2_images_skipped.2.1 ["h".toList] _ _ (by decide)⟩

/-- C5: the concrete document `<script src="https://cdn.example.com/js/app.js">`
with host set containing `cdn.example.com` is patched to contain
`<script src="./js/app.js">`; in general a non-image script/link URL
whose first matching host (in iteration order) is `h` has the matched
tag rewritten by replacing the URL with `./` plus the part of the URL
after the first occurrence of `h`, leading slashes stripped
(`c5SpecNewUrl`), and a URL matching no host leaves the tag unchanged. -/
theorem c5_script_rewrite :
    patch_index ["cdn.example.com".toList]
        "<script src=\"https://cdn.example.com/js/app.js\"></script>".toList =
      "<script src=\"./js/app.js\"></script>".toList ∧
    infixOfB "<script src=\"./js/app.js\">".toList
      (patch_index ["cdn.example.com".toList]
        "<script src=\"https://cdn.example.com/js/app.js\"></script>".toList) = true ∧
    (∀ (hosts : List (List Char)) (g0 url h : List Char),
      isImagePath url = false →
      hosts.find? (fun h' => infixOfB h' url) = some h →
      ∃ n, c5SpecNewUrl h url = some n ∧
        replacer hosts g0 url = pyReplace g0 url n) ∧
    (∀ (hosts : List (List Char)) (g0 url : List Char),
      hosts.find? (fun h' => infixOfB h' url) = none →
      replacer hosts g0 url = g0) := by
  refine ⟨by decide, by decide, ?_, ?_⟩
  · intro hosts g0 url h himg hfind
    have hinf : infixOfB h url = true := by
      have h2 := List.find?_some hfind
      simpa using h2
    obtain ⟨r, hr⟩ := afterFirst_isSome_of_infix h url hinf
    refine ⟨'.' :: '/' :: dropSlashes r, ?_, ?_⟩
    · unfold c5SpecNewUrl
      rw [hr]
      rfl
    · unfold replacer
      rw [if_neg (by simp [himg])]
      simp only [hfind]
      unfold splitOnceLast
      rw [hr]
  · intro hosts g0 url hfind
    unfold replacer
    by_cases himg : isImagePath url
    · rw [if_pos himg]
    · rw [if_neg himg, hfind]

/-- Witness for C5's general clauses at concrete inputs. -/
theorem c5_witness :
    (∃ n, c5SpecNewUrl "cdn.example.com".toList
        "https://cdn.example.com/js/app.js".toList = some n ∧
      replacer ["cdn.example.com".toList]
          "<script src=\"https://cdn.example.com/js/app.js\"".toList
          "https://cdn.example.com/js/app.js".toList =
        pyReplace "<script src=\"https://cdn.example.com/js/app.js\"".toList
          "https://cdn.example.com/js/app.js".toList n) ∧
    replacer ["q".toList] "g0".toList "url".toList = "g0".toList :=
  ⟨c5_script_rewrite.2.2.1 ["cdn.example.com".toList] _ _ _ (by decide) (by decide),
   c5_script_rewrite.2.2.2 ["q".toList] _ _ (by decide)⟩

/-- C4, counterexample: the document `<script src="./aa">` has only a
local relative script URL, yet with host set containing `a` a second
application of the patch transformation changes the once-patched text
again (`./aa` → `./a` → `./`), so patching is not idempotent on fully
relative content. -/
theorem c4_counterexample :
    patch_index ["a".toList] (patch_index ["a".toList] "<script src=\"./aa\">".toList) ≠
      patch_index ["a".toList] "<script src=\"./aa\">".toList := by decide

/-- C4 (amended): patching is idempotent on documents on which no pass
rewrites anything: if at every position the script/link passes either
fail or replace the matched tag by itself and the `@import`,
`_next/static`, `integrity` and `crossorigin` passes fail
(`patchNoOpCheck`), then applying the patch transformation twice equals
applying it once. -/
theorem c4_idempotent_on_noop (hosts : List (List Char)) (s : List Char)
    (h : patchNoOpCheck hosts s = true) :
    patch_index hosts (patch_index hosts s) = patch_index hosts s := by
  rw [patch_index_noop hosts s h, patch_index_noop hosts s h]

/-- Witness for C4 (amended) at an already-patched document. -/
theorem c4_witness :
    patchNoOpCheck ["cdn.example.com".toList] "<script src=\"./js/app.js\">".toList = true ∧
    patch_index ["cdn.example.com".toList]
        (patch_index ["cdn.example.com".toList] "<script src=\"./js/app.js\">".toList) =
      patch_index ["cdn.example.com".toList] "<script src=\"./js/app.js\">".toList :=
  ⟨by decide, c4_idempotent_on_noop ["cdn.example.com".toList]
    "<script src=\"./js/app.js\">".toList (by decide)⟩

/-- C7: in any document of the form
`pre ++ ' integrity="sha384-abc" crossorigin="anonymous"' ++ post` in
which no other strippable `integrity`/`crossorigin` occurrence exists
(neither in `pre`/`post` nor across the boundaries), the two attribute
substitutions of `patch_index` delete exactly the two
whitespace-preceded attributes and leave the rest of the text unchanged:
the result is `pre ++ post`. -/
theorem c7_strip_integrity_crossorigin (pre post : List Char)
    (hint : ∀ t ∈ (pre ++ (c7m1 ++ (c7m2 ++ post))).tails,
      t ≠ c7m1 ++ (c7m2 ++ post) → attrStripFind "integrity".toList t = none)
    (hcross : ∀ t ∈ (pre ++ (c7m2 ++ post)).tails,
      t ≠ c7m2 ++ post → attrStripFind "crossorigin".toList t = none) :
    crossoriginSub (integritySub (pre ++ (c7m1 ++ (c7m2 ++ post)))) = pre ++ post := by
  have hm1 : attrStripFind "integrity".toList (c7m1 ++ (c7m2 ++ post)) =
      some (c7m1.length - 1, []) := rfl
  have hm2 : attrStripFind "crossorigin".toList (c7m2 ++ post) =
      some (c7m2.length - 1, []) := rfl
  have hassoc1 : pre ++ (c7m1 ++ (c7m2 ++ post)) = (pre ++ c7m1) ++ (c7m2 ++ post) :=
    (List.append_assoc pre c7m1 (c7m2 ++ post)).symm
  have hassoc2 : pre ++ (c7m2 ++ post) = (pre ++ c7m2) ++ post :=
    (List.append_assoc pre c7m2 post).symm
  rw [hassoc1] at hint ⊢
  rw [hassoc2] at hcross
  have step1 : integritySub ((pre ++ c7m1) ++ (c7m2 ++ post)) =
      pre ++ [] ++ scanSub (attrStripFind "integrity".toList) (c7m2 ++ post) := by
    unfold integritySub
    refine scanSub_single _ pre c7m1 (c7m2 ++ post) [] (by decide) hm1 ?_
    intro t ht hlen
    refine hint t ((List.mem_tails _ _).mpr ht) ?_
    intro he
    rw [he] at hlen
    exact absurd hlen (lt_irrefl _)
  have hin : scanSub (attrStripFind "integrity".toList) (c7m2 ++ post) =
      c7m2 ++ post := by
    apply scanSub_id_of_none
    intro t ht
    refine hint t ?_ ?_
    · rw [List.mem_tails]
      exact ht.trans (List.suffix_append (pre ++ c7m1) (c7m2 ++ post))
    · intro he
      have hle : t.length ≤ (c7m2 ++ post).length := ht.length_le
      rw [he] at hle
      simp only [List.length_append] at hle
      have h23 : c7m1.length = 23 := by decide
      omega
  have step2 : crossoriginSub ((pre ++ c7m2) ++ post) =
      pre ++ [] ++ scanSub (attrStripFind "crossorigin".toList) post := by
    unfold crossoriginSub
    refine scanSub_single _ pre c7m2 post [] (by decide) hm2 ?_
    intro t ht hlen
    refine hcross t ((List.mem_tails _ _).mpr ht) ?_
    intro he
    rw [he] at hlen
    exact absurd hlen (lt_irrefl _)
  have hcr : scanSub (attrStripFind "crossorigin".toList) post = post := by
    apply scanSub_id_of_none
    intro t ht
    refine hcross t ?_ ?_
    · rw [List.mem_tails]
      exact ht.trans (List.suffix_append (pre ++ c7m2) post)
    · intro he
      have hle : t.length ≤ post.length := ht.length_le
      rw [he] at hle
      simp only [List.length_append] at hle
      have h24 : c7m2.length = 24 := by decide
      omega
  rw [List.append_nil] at step1 step2
  rw [step1, hin, hassoc2, step2, hcr]

/-- Witness for C7 at a concrete script tag carrying both attributes. -/
theorem c7_witness :
    crossoriginSub (integritySub ("<script src=\"./a.js\"".toList ++
        (c7m1 ++ (c7m2 ++ ">".toList)))) =
      "<script src=\"./a.js\"".toList ++ ">".toList :=
  c7_strip_integrity_crossorigin "<script src=\"./a.js\"".toList ">".toList
    (by decide) (by decide)

/-! ### Sanity checks of the embedding on concrete inputs (validated
against the behaviour of the corresponding CPython library calls) -/

example : b64decode "aGVsbG8=".toList = some [104, 101, 108, 108, 111] := by decide

example : b64decode "AB".toList = none := by decide

example : b64decode "".toList = some [] := by decide

example : pctDecode "a%20b%zz".toList = "a b%zz".toList := by decide

example : urlparse "http://cdn.example.com/js/app.js?v=1#f".toList =
    ("cdn.example.com".toList, "/js/app.js".toList) := by decide

example : urlparse "foo".toList = ([], "foo".toList) := by decide

example : urlparse "//a/b".toList = ("a".toList, "/b".toList) := by decide

example : pyReplace "abab".toList "ab".toList "X".toList = "XX".toList := by decide

example :
    processEntry ⟨⟨"http://h/a.txt".toList⟩, ⟨⟨some "hi".toList, none⟩, none⟩⟩ =
      .wrote "a.txt".toList (.text "hi".toList) := by decide

example :
    processEntry ⟨⟨"http://h/p.PNG".toList⟩, ⟨⟨some "x".toList, none⟩, none⟩⟩ =
      .skipImage "p.PNG".toList := by decide

example :
    processEntry ⟨⟨"http://h/b".toList⟩, ⟨⟨some "AB".toList, some "base64".toList⟩, some 200⟩⟩ =
      .failed "b".toList := by decide

example :
    extractHosts [⟨⟨"http://b/x".toList⟩, ⟨⟨none, none⟩, none⟩⟩,
                  ⟨⟨"http://a/y".toList⟩, ⟨⟨none, none⟩, none⟩⟩,
                  ⟨⟨"http://b/z".toList⟩, ⟨⟨none, none⟩, none⟩⟩] =
      ["b".toList, "a".toList] := by decide

example :
    hostsFileContent [⟨⟨"http://b/x".toList⟩, ⟨⟨none, none⟩, none⟩⟩,
                      ⟨⟨"http://a/y".toList⟩, ⟨⟨none, none⟩, none⟩⟩] =
      "a\nb".toList := by decide

example :
    patch_index ["cdn.example.com".toList]
        "<script src=\"https://cdn.example.com/js/app.js\"></script>".toList =
      "<script src=\"./js/app.js\"></script>".toList := by decide

example :
    patch_index ["cdn.example.com".toList]
        "<img src=\"https://cdn.example.com/logo.png\">".toList =
      "<img src=\"https://cdn.example.com/logo.png\">".toList := by decide

example :
    patch_index []
        "x //cdn.example.com/_next/static/chunks/a.js y".toList =
      "x ./_next/static/chunks/a.js y".toList := by decide

example :
    patch_index []
        "<script src=\"./a.js\" integrity=\"sha384-abc\" crossorigin=\"anonymous\"></script>".toList =
      "<script src=\"./a.js\"></script>".toList := by decide

example :
    patch_index ["a".toList] "<script src=\"./aa\">".toList =
      "<script src=\"./a\">".toList := by decide

example :
    patch_index ["a".toList] "<script src=\"./a\">".toList =
      "<script src=\"./\">".toList := by decide

example :
    cssImportSub "@import url(\"http://h/a/b.css\")".toList =
      "@import url(\"./a/b.css\"\")".toList := by decide

example :
    scriptSub ["h".toList] "<script data-src=\"x\" src=\"http://h/a.js\">".toList =
      "<script data-src=\"x\" src=\"./ttp://h/a.js\">".toList := by decide

example :
    scriptSub ["h".toList] "<script a src=\"u1\" b src=\"http://h/y.js\">".toList =
      "<script a src=\"u1\" b src=\"./ttp://h/y.js\">".toList := by decide

example :
    integritySub "x integ integrity=\"a\"rity=\"b\"".toList =
      "x integrity=\"b\"".toList := by decide

example : urlparse "http://h/a;p?q#f".toList = ("h".toList, "/a".toList) := by decide

example : urlparse "http://h//".toList = ("h".toList, "//".toList) := by decide
